import Mathlib

/-!
Verification development for the host state machine and connection
marketplace of a database cluster client driver (`src/host.cpp`).

The C++ source is shallowly embedded: machine integers become `Nat`/`Int`
with explicit wrapping where the source relies on it, `double` arithmetic in
the latency tracker becomes exact real arithmetic (`ℝ`), and the mutating
member functions become pure state-transition functions.
-/

namespace HostSpec

/-! ## VersionNumber (`host.cpp`, `VersionNumber::parse`)

`parse` is implemented in the source as
`sscanf(version.c_str(), "%d.%d.%d", &major_, &minor_, &patch_) >= 2`.
We embed the exact `sscanf` behaviour for the format `"%d.%d.%d"`:
each `%d` skips leading whitespace, accepts an optional sign and at least
one digit, and stores into its argument as soon as it matches; each literal
`'.'` must match the next input character exactly; matching stops at the
first failure and `sscanf` returns the number of conversions stored.
In particular a failed call may already have stored the components matched
before the failure. -/

/-- Numeric value of a digit string, most significant digit first
(the accumulation `sscanf` performs for `%d`; overflow of the C `int` is
undefined behaviour in the source and is modelled as unbounded). -/
def digitsToNat (l : List Char) : ℕ :=
  l.foldl (fun acc c => 10 * acc + (c.toNat - '0'.toNat)) 0

/-- Digit scanning for one `%d` conversion after the optional sign: at least
one digit must be present; the scan consumes the maximal digit run. -/
def scanDigits (s : List Char) (sgn : ℤ) : Option (ℤ × List Char) :=
  let ds := s.takeWhile Char.isDigit
  if ds.isEmpty then none
  else some (sgn * (digitsToNat ds : ℤ), s.dropWhile Char.isDigit)

/-- One `%d` conversion: skip whitespace, optional `'-'`/`'+'` sign, then a
nonempty digit run; `none` is a matching failure (nothing stored). -/
def scanInt (s : List Char) : Option (ℤ × List Char) :=
  let s1 := s.dropWhile Char.isWhitespace
  match s1 with
  | [] => none
  | c :: rest =>
    if c = '-' then scanDigits rest (-1)
    else if c = '+' then scanDigits rest 1
    else scanDigits s1 1

/-- `sscanf(s, "%d.%d.%d", ...)`: the list of integers actually stored, in
order.  The returned count of the C call is the length of this list. -/
def sscanf3 (s : List Char) : List ℤ :=
  match scanInt s with
  | none => []
  | some (a, r1) =>
    match r1 with
    | '.' :: r2 =>
      match scanInt r2 with
      | none => [a]
      | some (b, r3) =>
        match r3 with
        | '.' :: r4 =>
          match scanInt r4 with
          | none => [a, b]
          | some (c, _) => [a, b, c]
        | _ => [a, b]
    | _ => [a]

/-- Ordered version triple.  The class lives in `host.hpp`; its fields are
the three `int` members written by `VersionNumber::parse`. -/
structure VersionNumber where
  major : ℤ
  minor : ℤ
  patch : ℤ
  deriving DecidableEq, Repr

/-- Modelled from the spec: the default `VersionNumber` value representing
"unknown" is `(0,0,0)` (the constructor is in `host.hpp`, not in `src/`). -/
def VersionNumber.default : VersionNumber := ⟨0, 0, 0⟩

/-- Modelled from the spec: comparison of version triples is lexicographic
over `(major, minor, patch)` (the operators are declared in `host.hpp`,
not in `src/`).  `vlt a b` is `a < b`. -/
def vlt (a b : VersionNumber) : Bool :=
  a.major < b.major ∨ (a.major = b.major ∧
    (a.minor < b.minor ∨ (a.minor = b.minor ∧ a.patch < b.patch)))

/-- Modelled from the spec: `a ≥ b` in the lexicographic order. -/
def vge (a b : VersionNumber) : Bool := !vlt a b

/-- `VersionNumber::parse`: runs `sscanf` with format `"%d.%d.%d"` against
the current triple and reports whether at least two conversions were
stored.  Components beyond the matched ones keep their previous values —
including a partial overwrite of `major` when exactly one component
matched. -/
def VersionNumber.parse (v : VersionNumber) (s : String) : VersionNumber × Bool :=
  match sscanf3 s.data with
  | [] => (v, false)
  | [a] => ({ v with major := a }, false)
  | [a, b] => ({ v with major := a, minor := b }, true)
  | a :: b :: c :: _ => (⟨a, b, c⟩, true)

/-! ## Copy-on-write host registry (`add_host` / `remove_host`)

A registry entry is a `Host::Ptr`; two distinct handles may carry the same
address, so an entry is modelled as an address together with a tag
distinguishing handles.  Addresses are compared by value. -/

/-- A `Host::Ptr` registry entry: the host's immutable address plus a tag
standing for the handle's identity (all other host state). -/
structure HostR where
  address : ℤ
  tag : ℕ
  deriving DecidableEq, Repr

/-- `add_host`: scan for the first entry whose address equals the new
host's address; replace that slot in place, else append at the end. -/
def add_host : List HostR → HostR → List HostR
  | [], h => [h]
  | x :: xs, h => if x.address = h.address then h :: xs else x :: add_host xs h

/-- `remove_host` (address overload): erase the first entry with a matching
address and report whether one was found. -/
def remove_host : List HostR → ℤ → Bool × List HostR
  | [], _ => (false, [])
  | x :: xs, a =>
    if x.address = a then (true, xs)
    else
      let r := remove_host xs a
      (r.1, x :: r.2)

/-- At most one registry entry per distinct address. -/
def nodupAddr (l : List HostR) : Prop := (l.map HostR.address).Nodup

/-- The entry the registry holds for an address (first match, as every scan
in the source finds it). -/
def findHost (l : List HostR) (a : ℤ) : Option HostR :=
  l.find? (fun h => h.address = a)

/-- First-some choice on optional registry entries. -/
def optOr (x y : Option HostR) : Option HostR :=
  match x with
  | some v => some v
  | none => y

instance : DecidablePred nodupAddr := fun l =>
  inferInstanceAs (Decidable (l.map HostR.address).Nodup)

/-! ## Host metadata ingestion (`Host::set`)

The embedding covers the fields the version-correction logic touches:
`rack_`, `dc_`, `server_version_`, `dse_server_version_`, `partitioner_`.
Token extraction and `rpc_address` resolution call the row-decoding and
address-decoding collaborators and are outside the scope of the claims.

`get_string_by_name(name, &out)` leaves `out` untouched when the column is
absent.  For `rack`/`data_center`/`release_version` the source passes fresh
empty locals and then assigns the members unconditionally, so an absent
column yields `""`; for `partitioner` it passes the member itself, so an
absent column retains the previous value. -/

/-- The metadata columns of a decoded `system.local`/`system.peers` row
that `Host::set`'s version logic reads; `none` is an absent column. -/
structure RowV where
  rack : Option String
  data_center : Option String
  release_version : Option String
  dse_version : Option String
  partitioner : Option String

/-- The host fields `Host::set`'s version logic writes. -/
structure HostState where
  rack : String
  dc : String
  server_version : VersionNumber
  dse_server_version : VersionNumber
  partitioner : String
  deriving DecidableEq, Repr

/-- `Host::set`: copy rack/data-center, parse `release_version` into a
default-constructed local and install it only on success, then apply the
DSE version correction against the *stored* `server_version_` member
(`server_version_ >= VersionNumber(4, 0, 0)`), and copy `partitioner`.
`dse_server_version_.parse` writes the member even when it fails partway. -/
def Host.set (h : HostState) (row : RowV) : HostState :=
  let rack := row.rack.getD ""
  let dc := row.data_center.getD ""
  let release_version := row.release_version.getD ""
  let h1 := { h with rack := rack, dc := dc }
  let p := VersionNumber.default.parse release_version
  let h2 := if p.2 then { h1 with server_version := p.1 } else h1
  let h3 :=
    if vge h2.server_version ⟨4, 0, 0⟩ && row.dse_version.isSome then
      let q := h2.dse_server_version.parse (row.dse_version.getD "")
      let h' := { h2 with dse_server_version := q.1 }
      if q.2 && vlt q.1 ⟨6, 7, 0⟩ then { h' with server_version := ⟨3, 11, 0⟩ }
      else h'
    else h2
  { h3 with partitioner := row.partitioner.getD h3.partitioner }

/-! ## Connection marketplace (`Host::get_unpooled_connections`,
`Host::add_unpooled_connection`, `Host::close_unpooled_connections`)

`unpooled_connections_per_shard_` is a `std::map<int, std::list>`; here an
association list with at most one entry per key (the source's map iterates
in key order, ours in insertion order — no claim depends on the iteration
order across shards).  An `ExportedConnection` carries no observable data
beyond the wrapped connection, so a held connection is modelled by the
connection value itself. -/

/-- A transport connection: the shard it is bound to plus an identity. -/
structure Connection where
  shard_id : ℤ
  id : ℕ
  deriving DecidableEq, Repr

/-- The per-shard reservoir `unpooled_connections_per_shard_`. -/
def Marketplace := List (ℤ × List Connection)

/-- `map::find`: the list stored for a shard, `none` when the key is absent. -/
def mpFind : Marketplace → ℤ → Option (List Connection)
  | [], _ => none
  | (k, l) :: rest, s => if k = s then some l else mpFind rest s

/-- Replace the list stored at an existing key (first match). -/
def mpSet : Marketplace → ℤ → List Connection → Marketplace
  | [], _, _ => []
  | (k, l) :: rest, s, nl => if k = s then (k, nl) :: rest else (k, l) :: mpSet rest s nl

/-- `map::operator[]` followed by `push_back`: append to the shard's list,
creating the entry when the key is absent. -/
def mpAppend : Marketplace → ℤ → Connection → Marketplace
  | [], s, c => [(s, [c])]
  | (k, l) :: rest, s, c =>
    if k = s then (k, l ++ [c]) :: rest else (k, l) :: mpAppend rest s c

/-- `Host::add_unpooled_connection`: wrap the connection (keyed by its
shard id) and append it to that shard's list. -/
def Host.add_unpooled_connection (m : Marketplace) (c : Connection) : Marketplace :=
  mpAppend m c.shard_id c

/-- `Host::get_unpooled_connections`: splice `min(how_many, size)` items
off the front of the shard's list; an unknown shard or an empty list yields
an empty result and no mutation.  `how_many` is a nonnegative count (a
negative `int` argument would be undefined behaviour at the `std::next`
call in the source). -/
def Host.get_unpooled_connections (m : Marketplace) (shard_id : ℤ) (how_many : ℕ) :
    List Connection × Marketplace :=
  match mpFind m shard_id with
  | none => ([], m)
  | some l =>
    if l.isEmpty then ([], m)
    else
      let k := min how_many l.length
      (l.take k, mpSet m shard_id (l.drop k))

/-- `Host::close_unpooled_connections`: for every shard entry, import and
close each held connection in list order, then clear that entry's list
(the map keeps its keys).  The first component collects the connections
closed, in the order they are imported. -/
def Host.close_unpooled_connections : Marketplace → List Connection × Marketplace
  | [] => ([], [])
  | (k, l) :: rest =>
    let r := Host.close_unpooled_connections rest
    (l ++ r.1, (k, []) :: r.2)

/-- All connections the marketplace currently holds, in iteration order. -/
def heldConnections (m : Marketplace) : List Connection :=
  (m.map Prod.snd).flatten

/-- Number of connections currently held for one shard. -/
def shardLen (m : Marketplace) (s : ℤ) : ℕ := ((mpFind m s).getD []).length

/-- One marketplace operation of the conservation property: a deposit via
`add_unpooled_connection` or a withdrawal via `get_unpooled_connections`. -/
inductive MarketOp where
  | deposit : Connection → MarketOp
  | withdraw : ℤ → ℕ → MarketOp

/-- Run a sequence of marketplace operations (no concurrent close). -/
def runOps : Marketplace → List MarketOp → Marketplace
  | m, [] => m
  | m, MarketOp.deposit c :: ops => runOps (Host.add_unpooled_connection m c) ops
  | m, MarketOp.withdraw s n :: ops => runOps (Host.get_unpooled_connections m s n).2 ops

/-- Total number of items the withdrawals on shard `s` in an operation
sequence actually return. -/
def withdrawnFrom (s : ℤ) : Marketplace → List MarketOp → ℕ
  | _, [] => 0
  | m, MarketOp.deposit c :: ops => withdrawnFrom s (Host.add_unpooled_connection m c) ops
  | m, MarketOp.withdraw s' n :: ops =>
    let r := Host.get_unpooled_connections m s' n
    (if s' = s then r.1.length else 0) + withdrawnFrom s r.2 ops

/-- Total number of deposits to shard `s` in an operation sequence. -/
def depositedTo (s : ℤ) : List MarketOp → ℕ
  | [] => 0
  | MarketOp.deposit c :: ops => (if c.shard_id = s then 1 else 0) + depositedTo s ops
  | MarketOp.withdraw _ _ :: ops => depositedTo s ops

/-! ## LatencyTracker (`Host::LatencyTracker::update`)

`current_` is a `TimestampedAverage { int64_t average; uint64_t timestamp;
uint64_t num_measured; }`.  The clock value `now` and the sample
`latency_ns` are `uint64_t`, modelled as `ℕ`; `int64_t` fields as `ℤ`.
`int64_t delay = now - previous.timestamp` wraps the unsigned difference
into a two's-complement 64-bit value.  The `double` arithmetic of the
decayed-average branch is modelled over `ℝ`; the final
`static_cast<int64_t>` truncates toward zero (an out-of-range value there
is undefined behaviour in the source and is modelled as plain
truncation). -/

/-- Reinterpret an integer as a two's-complement signed 64-bit value (the
`uint64_t` → `int64_t` conversions of the source). -/
def wrap64 (z : ℤ) : ℤ := (z + 2 ^ 63) % 2 ^ 64 - 2 ^ 63

/-- `static_cast<int64_t>(double)`: truncation toward zero. -/
noncomputable def i64trunc (x : ℝ) : ℤ := if 0 ≤ x then ⌊x⌋ else ⌈x⌉

/-- The decay weight the source computes from the scaled delay:
`weight = log(scaled_delay + 1) / scaled_delay`. -/
noncomputable def latencyWeight (scaled : ℝ) : ℝ := Real.log (scaled + 1) / scaled

/-- The tracker state `TimestampedAverage`. -/
structure TimestampedAverage where
  average : ℤ
  timestamp : ℕ
  num_measured : ℕ
  deriving DecidableEq, Repr

/-- Modelled from the spec: the initial tracker state (constructed in
`host.hpp`, not in `src/`) is "no data": average `-1` (undefined),
timestamp `0`, zero measurements. -/
def TimestampedAverage.initial : TimestampedAverage := ⟨-1, 0, 0⟩

/-- `Host::LatencyTracker::update` with configuration
`threshold_to_account_ = threshold` and `scale_ns_ = scale`.  `now` is the
`uv_hrtime()` reading the call observes and `latency_ns` the sample.
During warm-up the average stays `-1`; the first sample after warm-up is
installed verbatim (with the `uint64_t` → `int64_t` wrap of the source);
otherwise a nonpositive wrapped delay discards the sample wholesale and a
positive delay folds the sample in with the time-decayed weight.  Except in
the discard case, the counter is incremented and the timestamp set to
`now`. -/
noncomputable def LatencyTracker.update (threshold : ℕ) (scale : ℝ)
    (cur : TimestampedAverage) (latency_ns : ℕ) (now : ℕ) : TimestampedAverage :=
  let previous := cur
  if previous.num_measured < threshold then
    { average := -1, timestamp := now, num_measured := previous.num_measured + 1 }
  else if previous.average < 0 then
    { average := wrap64 latency_ns, timestamp := now,
      num_measured := previous.num_measured + 1 }
  else
    let delay : ℤ := wrap64 ((now : ℤ) - (previous.timestamp : ℤ))
    if delay ≤ 0 then cur
    else
      let scaled_delay : ℝ := (delay : ℝ) / scale
      let weight : ℝ := latencyWeight scaled_delay
      { average := i64trunc ((1 - weight) * (latency_ns : ℝ) + weight * (previous.average : ℝ)),
        timestamp := now, num_measured := previous.num_measured + 1 }

/-- A whole history of `update` calls: fold the tracker over the observed
`(latency_ns, now)` pairs in order. -/
noncomputable def runUpdates (threshold : ℕ) (scale : ℝ)
    (s : TimestampedAverage) (samples : List (ℕ × ℕ)) : TimestampedAverage :=
  samples.foldl (fun st p => LatencyTracker.update threshold scale st p.1 p.2) s

/-! ## Character-level facts about the `sscanf` embedding -/

lemma digit_not_whitespace {c : Char} (h : c.isDigit = true) : c.isWhitespace = false := by
  by_contra hw
  have hw' : c.isWhitespace = true := by
    cases hcw : c.isWhitespace with
    | true => rfl
    | false => exact absurd hcw hw
  simp only [Char.isWhitespace, Bool.or_eq_true, decide_eq_true_eq] at hw'
  rcases hw' with ((rfl | rfl) | rfl) | rfl <;> exact absurd h (by decide)

lemma digit_ne_minus {c : Char} (h : c.isDigit = true) : c ≠ '-' := by
  rintro rfl; exact absurd h (by decide)

lemma digit_ne_plus {c : Char} (h : c.isDigit = true) : c ≠ '+' := by
  rintro rfl; exact absurd h (by decide)

lemma takeWhile_append_all {p : Char → Bool} (l1 l2 : List Char)
    (h : ∀ c ∈ l1, p c = true) :
    (l1 ++ l2).takeWhile p = l1 ++ l2.takeWhile p := by
  induction l1 with
  | nil => simp
  | cons a l ih =>
    have ha : p a = true := h a (List.mem_cons_self a l)
    simp [List.takeWhile_cons, ha, ih fun c hc => h c (List.mem_cons_of_mem a hc)]

lemma dropWhile_append_all {p : Char → Bool} (l1 l2 : List Char)
    (h : ∀ c ∈ l1, p c = true) :
    (l1 ++ l2).dropWhile p = l2.dropWhile p := by
  induction l1 with
  | nil => simp
  | cons a l ih =>
    have ha : p a = true := h a (List.mem_cons_self a l)
    simp [List.dropWhile_cons, ha, ih fun c hc => h c (List.mem_cons_of_mem a hc)]

lemma takeWhile_head_false {p : Char → Bool} (l : List Char)
    (h : ∀ c, l.head? = some c → p c = false) : l.takeWhile p = [] := by
  cases l with
  | nil => rfl
  | cons a r => simp [List.takeWhile_cons, h a rfl]

lemma dropWhile_head_false {p : Char → Bool} (l : List Char)
    (h : ∀ c, l.head? = some c → p c = false) : l.dropWhile p = l := by
  cases l with
  | nil => rfl
  | cons a r => simp [List.dropWhile_cons, h a rfl]

/-- One `%d` conversion applied to a nonempty digit run followed by input
that does not start with a digit: the whole run is consumed and its value
stored. -/
lemma scanInt_digits (ds rest : List Char) (hne : ds ≠ [])
    (hds : ∀ c ∈ ds, c.isDigit = true)
    (hrest : ∀ c, rest.head? = some c → c.isDigit = false) :
    scanInt (ds ++ rest) = some ((digitsToNat ds : ℤ), rest) := by
  obtain ⟨d, ds', rfl⟩ : ∃ d ds', ds = d :: ds' := by
    cases ds with
    | nil => exact absurd rfl hne
    | cons d ds' => exact ⟨d, ds', rfl⟩
  have hd : d.isDigit = true := hds d (List.mem_cons_self d ds')
  have htw : ((d :: ds') ++ rest).takeWhile Char.isDigit = d :: ds' := by
    rw [takeWhile_append_all _ _ hds, takeWhile_head_false rest hrest, List.append_nil]
  have hdw : ((d :: ds') ++ rest).dropWhile Char.isDigit = rest := by
    rw [dropWhile_append_all _ _ hds, dropWhile_head_false rest hrest]
  simp only [scanInt, List.cons_append, List.dropWhile_cons, digit_not_whitespace hd,
    Bool.false_eq_true, if_false]
  rw [if_neg (digit_ne_minus hd), if_neg (digit_ne_plus hd)]
  simp only [scanDigits, ← List.cons_append, htw, hdw, List.isEmpty_cons, one_mul]
  simp

/-- `sscanf("%d.%d.%d")` on an input of the exact shape
`digits ++ "." ++ digits`: both components are stored, nothing more. -/
lemma sscanf3_two_components (d1 d2 : List Char) (h1 : d1 ≠ []) (h2 : d2 ≠ [])
    (hd1 : ∀ c ∈ d1, c.isDigit = true) (hd2 : ∀ c ∈ d2, c.isDigit = true) :
    sscanf3 (d1 ++ '.' :: d2) = [(digitsToNat d1 : ℤ), (digitsToNat d2 : ℤ)] := by
  have hs1 : scanInt (d1 ++ '.' :: d2) = some ((digitsToNat d1 : ℤ), '.' :: d2) :=
    scanInt_digits d1 ('.' :: d2) h1 hd1 (by rintro c hc; cases hc; decide)
  have hs2 : scanInt d2 = some ((digitsToNat d2 : ℤ), []) := by
    have := scanInt_digits d2 [] h2 hd2 (by rintro c hc; cases hc)
    simpa using this
  simp only [sscanf3, hs1, hs2]

/-! ## Claim C2 -/

/-- C2 (counterexample): the claim "if `parse(text)` returns false then the
`(major, minor, patch)` triple after the call equals its value before the
call" is false: `parse("7")` on the instance `(3,11,5)` returns false yet
overwrites `major` with `7` — `sscanf` stores each `%d` as soon as it
matches, before the overall count is known. -/
theorem parse_failure_untouched_cex :
    ((VersionNumber.mk 3 11 5).parse "7").2 = false ∧
      ((VersionNumber.mk 3 11 5).parse "7").1 ≠ VersionNumber.mk 3 11 5 ∧
      ((VersionNumber.mk 3 11 5).parse "7").1 = VersionNumber.mk 7 11 5 := by
  refine ⟨rfl, ?_, rfl⟩
  decide

/-- C2 (amended): when `parse` returns false, `minor` and `patch` are never
overwritten, and when no component at all was scanned the whole triple is
unchanged; but a failed parse that scanned exactly one component has
already overwritten `major`. -/
theorem parse_failure_partial (v : VersionNumber) (s : String)
    (h : (v.parse s).2 = false) :
    (v.parse s).1.minor = v.minor ∧ (v.parse s).1.patch = v.patch ∧
      (sscanf3 s.data = [] → (v.parse s).1 = v) := by
  cases hs : sscanf3 s.data with
  | nil => simp [VersionNumber.parse, hs]
  | cons a t =>
    cases t with
    | nil => simp [VersionNumber.parse, hs]
    | cons b t2 =>
      cases t2 with
      | nil => simp [VersionNumber.parse, hs] at h
      | cons c t3 => simp [VersionNumber.parse, hs] at h

/-- C2 (witness): instantiation of `parse_failure_partial` at the instance
`(3,11,5)` and the unparsable input `"x"`. -/
theorem parse_failure_partial_witness :
    (((VersionNumber.mk 3 11 5).parse "x").2 = false) ∧
      (((VersionNumber.mk 3 11 5).parse "x").1.minor = (VersionNumber.mk 3 11 5).minor ∧
        ((VersionNumber.mk 3 11 5).parse "x").1.patch = (VersionNumber.mk 3 11 5).patch ∧
        (sscanf3 "x".data = [] →
          ((VersionNumber.mk 3 11 5).parse "x").1 = VersionNumber.mk 3 11 5)) :=
  ⟨by decide, parse_failure_partial (VersionNumber.mk 3 11 5) "x" (by decide)⟩

/-! ## Claim C7 -/

/-- C7 (counterexample): the claim "`parse` on `"major.minor"` leaves
`patch` equal to 0 for every instance" is false: on the instance `(1,2,5)`,
`parse("3.11")` succeeds but leaves `patch = 5` — the two-conversion
`sscanf` never writes the third component, so it keeps its prior value
rather than being zeroed. -/
theorem parse_two_patch_zero_cex :
    ((VersionNumber.mk 1 2 5).parse "3.11") = (VersionNumber.mk 3 11 5, true) ∧
      ((VersionNumber.mk 1 2 5).parse "3.11").1.patch ≠ 0 := by
  refine ⟨?_, ?_⟩ <;> decide

/-- C7 (amended): `parse` on a string of the exact form `"major.minor"`
(two nonempty digit components) returns true, sets `major` and `minor` as
parsed, and leaves `patch` at its *prior* value; in particular on a
default-constructed instance `(0,0,0)`, `parse("3.11")` yields
`(3,11,0)`. -/
theorem parse_two_components (v : VersionNumber) (d1 d2 : List Char)
    (h1 : d1 ≠ []) (h2 : d2 ≠ [])
    (hd1 : ∀ c ∈ d1, c.isDigit = true) (hd2 : ∀ c ∈ d2, c.isDigit = true) :
    v.parse (String.mk (d1 ++ '.' :: d2)) =
      (⟨(digitsToNat d1 : ℤ), (digitsToNat d2 : ℤ), v.patch⟩, true) ∧
      VersionNumber.default.parse "3.11" = (⟨3, 11, 0⟩, true) := by
  constructor
  · have hdata : (String.mk (d1 ++ '.' :: d2)).data = d1 ++ '.' :: d2 := rfl
    simp only [VersionNumber.parse, hdata, sscanf3_two_components d1 d2 h1 h2 hd1 hd2]
  · decide

/-- C7 (witness): instantiation of `parse_two_components` at the instance
`(1,2,5)` and the component lists of `"3.11"`. -/
theorem parse_two_components_witness :
    (VersionNumber.mk 1 2 5).parse (String.mk (['3'] ++ '.' :: ['1', '1'])) =
      (⟨(digitsToNat ['3'] : ℤ), (digitsToNat ['1', '1'] : ℤ),
        (VersionNumber.mk 1 2 5).patch⟩, true) ∧
      VersionNumber.default.parse "3.11" = (⟨3, 11, 0⟩, true) :=
  parse_two_components (VersionNumber.mk 1 2 5) ['3'] ['1', '1']
    (by decide) (by decide) (by decide) (by decide)

/-! ## Claim C5 -/

/-- C5: in `Host::set`, when the release version parses to `V ≥ (4,0,0)`
and a `dse_version` column is present: a DSE version parsing below
`(6,7,0)` forces `server_version` to `(3,11,0)`; a DSE version parsing at
or above `(6,7,0)` leaves `server_version` at `V`; and a DSE parse failure
skips the correction, leaving `server_version` at `V`. -/
theorem dse_correction (hst : HostState) (row : RowV) (rel ds : String) (V : VersionNumber)
    (hrel : row.release_version = some rel)
    (hds : row.dse_version = some ds)
    (hp : VersionNumber.default.parse rel = (V, true))
    (hge : vge V ⟨4, 0, 0⟩ = true) :
    ((hst.dse_server_version.parse ds).2 = true →
      vlt (hst.dse_server_version.parse ds).1 ⟨6, 7, 0⟩ = true →
      (Host.set hst row).server_version = ⟨3, 11, 0⟩) ∧
    ((hst.dse_server_version.parse ds).2 = true →
      vlt (hst.dse_server_version.parse ds).1 ⟨6, 7, 0⟩ = false →
      (Host.set hst row).server_version = V) ∧
    ((hst.dse_server_version.parse ds).2 = false →
      (Host.set hst row).server_version = V) := by
  simp only [Host.set, hrel, hds, Option.getD_some, Option.isSome_some, hp, if_true,
    Bool.and_true, hge]
  refine ⟨?_, ?_, ?_⟩
  · intro hq hlt
    simp [hq, hlt]
  · intro hq hlt
    simp [hq, hlt]
  · intro hq
    simp [hq]

/-- C5 (witness): instantiation of `dse_correction` on a host at `(2,1,0)`
ingesting release `"4.0.0"` with DSE version `"6.6.0"`. -/
theorem dse_correction_witness :
    (((HostState.mk "r" "d" ⟨2, 1, 0⟩ ⟨0, 0, 0⟩ "p").dse_server_version.parse "6.6.0").2 = true →
      vlt ((HostState.mk "r" "d" ⟨2, 1, 0⟩ ⟨0, 0, 0⟩ "p").dse_server_version.parse "6.6.0").1
        ⟨6, 7, 0⟩ = true →
      (Host.set (HostState.mk "r" "d" ⟨2, 1, 0⟩ ⟨0, 0, 0⟩ "p")
        (RowV.mk (some "rack1") (some "dc1") (some "4.0.0") (some "6.6.0")
          (some "part"))).server_version = ⟨3, 11, 0⟩) ∧
    (((HostState.mk "r" "d" ⟨2, 1, 0⟩ ⟨0, 0, 0⟩ "p").dse_server_version.parse "6.6.0").2 = true →
      vlt ((HostState.mk "r" "d" ⟨2, 1, 0⟩ ⟨0, 0, 0⟩ "p").dse_server_version.parse "6.6.0").1
        ⟨6, 7, 0⟩ = false →
      (Host.set (HostState.mk "r" "d" ⟨2, 1, 0⟩ ⟨0, 0, 0⟩ "p")
        (RowV.mk (some "rack1") (some "dc1") (some "4.0.0") (some "6.6.0")
          (some "part"))).server_version = ⟨4, 0, 0⟩) ∧
    (((HostState.mk "r" "d" ⟨2, 1, 0⟩ ⟨0, 0, 0⟩ "p").dse_server_version.parse "6.6.0").2 = false →
      (Host.set (HostState.mk "r" "d" ⟨2, 1, 0⟩ ⟨0, 0, 0⟩ "p")
        (RowV.mk (some "rack1") (some "dc1") (some "4.0.0") (some "6.6.0")
          (some "part"))).server_version = ⟨4, 0, 0⟩) :=
  dse_correction (HostState.mk "r" "d" ⟨2, 1, 0⟩ ⟨0, 0, 0⟩ "p")
    (RowV.mk (some "rack1") (some "dc1") (some "4.0.0") (some "6.6.0") (some "part"))
    "4.0.0" "6.6.0" ⟨4, 0, 0⟩ rfl rfl (by decide) (by decide)

/-! ## Claim C10 -/

/-- C10: the vendor-correction guard in `Host::set` tests the *stored*
`server_version_` member, so a row whose `release_version` fails to parse
but whose `dse_version` parses below `(6,7,0)` still overwrites a retained
previous `server_version ≥ (4,0,0)` with `(3,11,0)`. -/
theorem stale_version_corrected (hst : HostState) (row : RowV) (rel ds : String)
    (hrel : row.release_version = some rel)
    (hds : row.dse_version = some ds)
    (hp : (VersionNumber.default.parse rel).2 = false)
    (hge : vge hst.server_version ⟨4, 0, 0⟩ = true)
    (hq : (hst.dse_server_version.parse ds).2 = true)
    (hlt : vlt (hst.dse_server_version.parse ds).1 ⟨6, 7, 0⟩ = true) :
    (Host.set hst row).server_version = ⟨3, 11, 0⟩ := by
  simp only [Host.set, hrel, hds, Option.getD_some, Option.isSome_some, hp,
    Bool.false_eq_true, if_false, Bool.and_true, hge, if_true, hq, hlt]

/-- C10 (witness): instantiation of `stale_version_corrected` on a host
retaining `(4,0,0)` that ingests an unparsable release version together
with DSE version `"6.0.0"`. -/
theorem stale_version_corrected_witness :
    (Host.set (HostState.mk "r" "d" ⟨4, 0, 0⟩ ⟨0, 0, 0⟩ "p")
      (RowV.mk none none (some "borked") (some "6.0.0") none)).server_version =
      ⟨3, 11, 0⟩ :=
  stale_version_corrected (HostState.mk "r" "d" ⟨4, 0, 0⟩ ⟨0, 0, 0⟩ "p")
    (RowV.mk none none (some "borked") (some "6.0.0") none)
    "borked" "6.0.0" rfl rfl (by decide) (by decide) (by decide) (by decide)

/-! ## Claim C3: registry helper lemmas -/

lemma add_host_addr_mem (l : List HostR) (h : HostR) (a : ℤ)
    (ha : a ∈ (add_host l h).map HostR.address) :
    a = h.address ∨ a ∈ l.map HostR.address := by
  induction l with
  | nil => simpa [add_host] using ha
  | cons x xs ih =>
    by_cases hx : x.address = h.address
    · simp only [add_host, hx, if_true, List.map_cons, List.mem_cons] at ha ⊢
      tauto
    · simp only [add_host, hx, if_false, List.map_cons, List.mem_cons] at ha ⊢
      rcases ha with ha | ha
      · tauto
      · rcases ih ha with h1 | h1 <;> tauto

lemma add_host_nodup (l : List HostR) (h : HostR) (hl : nodupAddr l) :
    nodupAddr (add_host l h) := by
  induction l with
  | nil => simp [add_host, nodupAddr]
  | cons x xs ih =>
    simp only [nodupAddr, List.map_cons, List.nodup_cons] at hl
    by_cases hx : x.address = h.address
    · simp only [add_host, hx, if_true, nodupAddr, List.map_cons, List.nodup_cons]
      exact ⟨hx ▸ hl.1, hl.2⟩
    · simp only [add_host, hx, if_false, nodupAddr, List.map_cons, List.nodup_cons]
      refine ⟨?_, ih hl.2⟩
      intro hmem
      rcases add_host_addr_mem xs h _ hmem with h1 | h1
      · exact hx h1
      · exact hl.1 h1

lemma findHost_add_self (l : List HostR) (h : HostR) :
    findHost (add_host l h) h.address = some h := by
  induction l with
  | nil => simp [add_host, findHost]
  | cons x xs ih =>
    by_cases hx : x.address = h.address
    · simp [add_host, hx, findHost]
    · simpa [add_host, hx, findHost] using ih

lemma findHost_add_other (l : List HostR) (h : HostR) (a : ℤ) (ha : a ≠ h.address) :
    findHost (add_host l h) a = findHost l a := by
  have h1 : h.address ≠ a := fun he => ha he.symm
  induction l with
  | nil => simp [add_host, findHost, h1]
  | cons x xs ih =>
    by_cases hx : x.address = h.address
    · have h2 : x.address ≠ a := hx ▸ h1
      simp [add_host, hx, findHost, h1, h2]
    · simp only [add_host, hx, if_false]
      by_cases hxa : x.address = a
      · simp [findHost, hxa]
      · simp only [findHost] at ih ⊢
        rw [List.find?_cons_of_neg _ (by simp [hxa]), List.find?_cons_of_neg _ (by simp [hxa])]
        exact ih

lemma foldl_add_host_find (calls : List HostR) (init : List HostR) (a : ℤ) :
    findHost (List.foldl add_host init calls) a =
      optOr (calls.reverse.find? fun h => h.address = a) (findHost init a) := by
  induction calls generalizing init with
  | nil => simp [optOr]
  | cons c cs ih =>
    simp only [List.foldl_cons, List.reverse_cons, ih (add_host init c)]
    cases hf : cs.reverse.find? (fun h => decide (h.address = a)) with
    | some x => simp [optOr, List.find?_append, hf, Option.or]
    | none =>
      simp only [List.find?_append, hf, Option.none_or]
      by_cases hc : c.address = a
      · subst hc
        rw [findHost_add_self]
        simp [optOr, List.find?_cons_of_pos]
      · rw [findHost_add_other init c a (fun he => hc he.symm)]
        rw [List.find?_cons_of_neg _ (by simp [hc]), List.find?_nil]

lemma remove_host_not_found (l : List HostR) (a : ℤ) (h : findHost l a = none) :
    remove_host l a = (false, l) := by
  induction l with
  | nil => rfl
  | cons x xs ih =>
    simp only [findHost, List.find?_eq_none] at h
    have hx : ¬ x.address = a := by
      have := h x (List.mem_cons_self x xs)
      simpa using this
    have hxs : findHost xs a = none := by
      simp only [findHost, List.find?_eq_none]
      intro y hy
      exact h y (List.mem_cons_of_mem x hy)
    simp [remove_host, hx, ih hxs]

lemma remove_host_found (l : List HostR) (a : ℤ) (hnd : nodupAddr l)
    (h : (findHost l a).isSome = true) :
    (remove_host l a).1 = true ∧
      (remove_host l a).2 = l.filter fun x => decide (x.address ≠ a) := by
  induction l with
  | nil => simp [findHost] at h
  | cons x xs ih =>
    simp only [nodupAddr, List.map_cons, List.nodup_cons] at hnd
    by_cases hx : x.address = a
    · have hxs : ∀ y ∈ xs, decide (y.address ≠ a) = true := by
        intro y hy
        simp only [decide_eq_true_eq]
        intro he
        exact hnd.1 (by rw [hx, ← he]; exact List.mem_map_of_mem HostR.address hy)
      simp only [remove_host, hx, if_true, List.filter_cons]
      have hfe : List.filter (fun y => !decide (y.address = a)) xs = xs :=
        List.filter_eq_self.mpr (fun y hy => by simpa using hxs y hy)
      simp [hfe]
    · have hxs : (findHost xs a).isSome = true := by
        simp only [findHost] at h
        rw [List.find?_cons_of_neg _ (by simp [hx])] at h
        exact h
      have := ih hnd.2 hxs
      simp only [remove_host, hx, if_false, List.filter_cons]
      have hd : (decide (x.address ≠ a)) = true := by simp [hx]
      rw [hd]
      simp only [if_true]
      exact ⟨this.1, by rw [this.2]⟩

/-- C3: registry uniqueness.  Each `add_host` preserves "at most one entry
per distinct address" (also along any sequence of calls); after `add_host`
the entry found for the new host's address is exactly that host and every
other address is untouched, so after any call sequence the entry present
for an address is the one from the most recent `add_host` with that address
(falling back to the initial entry).  `remove_host` on an absent address
returns false and leaves the collection unchanged; on a present address it
returns true and removes exactly that address's entry. -/
theorem registry_uniqueness :
    (∀ (l : List HostR) (h : HostR), nodupAddr l → nodupAddr (add_host l h)) ∧
    (∀ (init calls : List HostR), nodupAddr init →
      nodupAddr (List.foldl add_host init calls)) ∧
    (∀ (l : List HostR) (h : HostR), findHost (add_host l h) h.address = some h) ∧
    (∀ (l : List HostR) (h : HostR) (a : ℤ), a ≠ h.address →
      findHost (add_host l h) a = findHost l a) ∧
    (∀ (init calls : List HostR) (a : ℤ),
      findHost (List.foldl add_host init calls) a =
        optOr (calls.reverse.find? fun h => h.address = a) (findHost init a)) ∧
    (∀ (l : List HostR) (a : ℤ), findHost l a = none → remove_host l a = (false, l)) ∧
    (∀ (l : List HostR) (a : ℤ), nodupAddr l → (findHost l a).isSome = true →
      (remove_host l a).1 = true ∧
        (remove_host l a).2 = l.filter fun x => decide (x.address ≠ a)) := by
  refine ⟨add_host_nodup, ?_, findHost_add_self, findHost_add_other,
    fun init calls a => foldl_add_host_find calls init a,
    remove_host_not_found, remove_host_found⟩
  intro init calls hnd
  induction calls generalizing init with
  | nil => exact hnd
  | cons c cs ih => exact ih (add_host init c) (add_host_nodup init c hnd)

/-- C3 (witness): instantiation of `registry_uniqueness`'s `remove_host`
clause on the two-entry registry `[(addr 1), (addr 2)]` at address 2. -/
theorem registry_uniqueness_witness :
    (remove_host [HostR.mk 1 10, HostR.mk 2 20] 2).1 = true ∧
      (remove_host [HostR.mk 1 10, HostR.mk 2 20] 2).2 =
        [HostR.mk 1 10, HostR.mk 2 20].filter fun x => decide (x.address ≠ 2) :=
  registry_uniqueness.2.2.2.2.2.2 [HostR.mk 1 10, HostR.mk 2 20] 2
    (by decide) (by decide)

/-! ## Claims C4 and C8: marketplace helper lemmas -/

lemma mpFind_mpAppend_self (m : Marketplace) (s : ℤ) (c : Connection) :
    mpFind (mpAppend m s c) s = some (((mpFind m s).getD []) ++ [c]) := by
  induction m with
  | nil => simp [mpAppend, mpFind]
  | cons e rest ih =>
    obtain ⟨k, l⟩ := e
    by_cases hk : k = s
    · simp [mpAppend, mpFind, hk]
    · simp [mpAppend, mpFind, hk, ih]

lemma mpFind_mpAppend_other (m : Marketplace) (s s' : ℤ) (c : Connection) (h : s' ≠ s) :
    mpFind (mpAppend m s c) s' = mpFind m s' := by
  have hss : ¬ s = s' := fun he => h he.symm
  induction m with
  | nil => simp [mpAppend, mpFind, hss]
  | cons e rest ih =>
    obtain ⟨k, l⟩ := e
    by_cases hk : k = s
    · simp [mpAppend, mpFind, hk, hss]
    · by_cases hk' : k = s'
      · simp [mpAppend, mpFind, hk, hk', h]
      · simp [mpAppend, mpFind, hk, hk', ih]

lemma mpFind_mpSet_self (m : Marketplace) (s : ℤ) (nl l0 : List Connection)
    (h : mpFind m s = some l0) :
    mpFind (mpSet m s nl) s = some nl := by
  induction m with
  | nil => simp [mpFind] at h
  | cons e rest ih =>
    obtain ⟨k, l⟩ := e
    by_cases hk : k = s
    · simp [mpSet, mpFind, hk]
    · simp only [mpFind, hk, if_false] at h
      simp [mpSet, mpFind, hk, ih h]

lemma mpFind_mpSet_other (m : Marketplace) (s s' : ℤ) (nl : List Connection) (h : s' ≠ s) :
    mpFind (mpSet m s nl) s' = mpFind m s' := by
  have hss : ¬ s = s' := fun he => h he.symm
  induction m with
  | nil => simp [mpSet, mpFind]
  | cons e rest ih =>
    obtain ⟨k, l⟩ := e
    by_cases hk : k = s
    · simp [mpSet, mpFind, hk, hss]
    · by_cases hk' : k = s'
      · simp [mpSet, mpFind, hk, hk', h]
      · simp [mpSet, mpFind, hk, hk', ih]

lemma get_unpooled_found (m : Marketplace) (s : ℤ) (n : ℕ) (l : List Connection)
    (hf : mpFind m s = some l) (hne : l ≠ []) :
    Host.get_unpooled_connections m s n =
      (l.take (min n l.length), mpSet m s (l.drop (min n l.length))) := by
  simp [Host.get_unpooled_connections, hf, List.isEmpty_iff, hne]

lemma get_unpooled_empty (m : Marketplace) (s : ℤ) (n : ℕ)
    (h : mpFind m s = none ∨ mpFind m s = some []) :
    Host.get_unpooled_connections m s n = ([], m) := by
  rcases h with h | h <;> simp [Host.get_unpooled_connections, h]

lemma shardLen_deposit (m : Marketplace) (c : Connection) (s : ℤ) :
    shardLen (Host.add_unpooled_connection m c) s =
      shardLen m s + (if c.shard_id = s then 1 else 0) := by
  by_cases hs : c.shard_id = s
  · subst hs
    simp [shardLen, Host.add_unpooled_connection, mpFind_mpAppend_self]
  · simp [shardLen, Host.add_unpooled_connection,
      mpFind_mpAppend_other m c.shard_id s c (fun he => hs he.symm), hs]

lemma shardLen_withdraw (m : Marketplace) (s' : ℤ) (n : ℕ) (s : ℤ) :
    shardLen (Host.get_unpooled_connections m s' n).2 s +
      (if s' = s then (Host.get_unpooled_connections m s' n).1.length else 0) =
      shardLen m s := by
  rcases hf : mpFind m s' with _ | l
  · rw [get_unpooled_empty m s' n (Or.inl hf)]
    simp
  · by_cases hne : l = []
    · subst hne
      rw [get_unpooled_empty m s' n (Or.inr hf)]
      simp
    · rw [get_unpooled_found m s' n l hf hne]
      by_cases hs : s' = s
      · subst hs
        simp only [if_true, shardLen, mpFind_mpSet_self m s' _ l hf, Option.getD_some, hf,
          List.length_drop, List.length_take]
        omega
      · simp [shardLen, mpFind_mpSet_other m s' s _ (fun he => hs he.symm), hs]

lemma marketplace_conservation (ops : List MarketOp) (m : Marketplace) (s : ℤ) :
    shardLen (runOps m ops) s + withdrawnFrom s m ops =
      shardLen m s + depositedTo s ops := by
  induction ops generalizing m with
  | nil => simp [runOps, withdrawnFrom, depositedTo]
  | cons op ops ih =>
    cases op with
    | deposit c =>
      simp only [runOps, withdrawnFrom, depositedTo]
      rw [ih (Host.add_unpooled_connection m c), shardLen_deposit]
      omega
    | withdraw s' n =>
      simp only [runOps, withdrawnFrom, depositedTo]
      have h1 := ih (Host.get_unpooled_connections m s' n).2
      have h2 := shardLen_withdraw m s' n s
      omega

lemma close_closed_eq_held (m : Marketplace) :
    (Host.close_unpooled_connections m).1 = heldConnections m := by
  induction m with
  | nil => rfl
  | cons e rest ih =>
    obtain ⟨k, l⟩ := e
    simp [Host.close_unpooled_connections, heldConnections, ih]

lemma close_shardLen (m : Marketplace) (s : ℤ) :
    shardLen (Host.close_unpooled_connections m).2 s = 0 := by
  induction m with
  | nil => rfl
  | cons e rest ih =>
    obtain ⟨k, l⟩ := e
    by_cases hk : k = s
    · simp [Host.close_unpooled_connections, shardLen, mpFind, hk]
    · simp only [Host.close_unpooled_connections, shardLen, mpFind, hk, if_false] at ih ⊢
      exact ih

lemma close_then_withdraw (m : Marketplace) (s : ℤ) (n : ℕ) :
    Host.get_unpooled_connections (Host.close_unpooled_connections m).2 s n =
      ([], (Host.close_unpooled_connections m).2) := by
  apply get_unpooled_empty
  have h := close_shardLen m s
  simp only [shardLen] at h
  cases hf : mpFind (Host.close_unpooled_connections m).2 s with
  | none => exact Or.inl rfl
  | some l =>
    right
    rw [hf] at h
    simp only [Option.getD_some, List.length_eq_zero] at h
    rw [h]

lemma close_twice (m : Marketplace) :
    (Host.close_unpooled_connections (Host.close_unpooled_connections m).2).1 = [] := by
  induction m with
  | nil => rfl
  | cons e rest ih =>
    obtain ⟨k, l⟩ := e
    simpa [Host.close_unpooled_connections] using ih

/-- C4: withdrawal.  When the shard is known with a nonempty list,
`get_unpooled_connections` returns exactly the first
`min(max_count, available)` items in list order, leaves that shard holding
exactly the remaining items (returned ++ remaining is the original list)
and every other shard untouched; when the shard is unknown or empty it
returns an empty sequence and modifies nothing (it is a total function —
no error).  Consequently, over any operation sequence with no concurrent
close, items still held plus items withdrawn equal items initially held
plus items deposited, per shard. -/
theorem marketplace_withdraw :
    (∀ (m : Marketplace) (s : ℤ) (n : ℕ) (l : List Connection),
      mpFind m s = some l → l ≠ [] →
      (Host.get_unpooled_connections m s n).1 = l.take (min n l.length) ∧
      (Host.get_unpooled_connections m s n).1.length = min n l.length ∧
      mpFind (Host.get_unpooled_connections m s n).2 s = some (l.drop (min n l.length)) ∧
      (Host.get_unpooled_connections m s n).1 ++ l.drop (min n l.length) = l ∧
      (∀ s' : ℤ, s' ≠ s →
        mpFind (Host.get_unpooled_connections m s n).2 s' = mpFind m s')) ∧
    (∀ (m : Marketplace) (s : ℤ) (n : ℕ),
      mpFind m s = none ∨ mpFind m s = some [] →
      Host.get_unpooled_connections m s n = ([], m)) ∧
    (∀ (ops : List MarketOp) (m : Marketplace) (s : ℤ),
      shardLen (runOps m ops) s + withdrawnFrom s m ops =
        shardLen m s + depositedTo s ops) := by
  refine ⟨?_, get_unpooled_empty, fun ops m s => marketplace_conservation ops m s⟩
  intro m s n l hf hne
  rw [get_unpooled_found m s n l hf hne]
  refine ⟨rfl, ?_, mpFind_mpSet_self m s _ l hf, List.take_append_drop _ l, ?_⟩
  · simp only [List.length_take]
    omega
  · intro s' hs'
    exact mpFind_mpSet_other m s s' _ hs'

/-- C4 (witness): instantiation of `marketplace_withdraw`'s known-shard
clause: shard 0 holds three connections and two are requested. -/
theorem marketplace_withdraw_witness :
    (Host.get_unpooled_connections [(0, [Connection.mk 0 1, Connection.mk 0 2,
        Connection.mk 0 3])] 0 2).1 =
      [Connection.mk 0 1, Connection.mk 0 2, Connection.mk 0 3].take
        (min 2 [Connection.mk 0 1, Connection.mk 0 2, Connection.mk 0 3].length) ∧
    (Host.get_unpooled_connections [(0, [Connection.mk 0 1, Connection.mk 0 2,
        Connection.mk 0 3])] 0 2).1.length =
      min 2 [Connection.mk 0 1, Connection.mk 0 2, Connection.mk 0 3].length ∧
    mpFind (Host.get_unpooled_connections [(0, [Connection.mk 0 1, Connection.mk 0 2,
        Connection.mk 0 3])] 0 2).2 0 =
      some ([Connection.mk 0 1, Connection.mk 0 2, Connection.mk 0 3].drop
        (min 2 [Connection.mk 0 1, Connection.mk 0 2, Connection.mk 0 3].length)) ∧
    (Host.get_unpooled_connections [(0, [Connection.mk 0 1, Connection.mk 0 2,
        Connection.mk 0 3])] 0 2).1 ++
      [Connection.mk 0 1, Connection.mk 0 2, Connection.mk 0 3].drop
        (min 2 [Connection.mk 0 1, Connection.mk 0 2, Connection.mk 0 3].length) =
      [Connection.mk 0 1, Connection.mk 0 2, Connection.mk 0 3] ∧
    (∀ s' : ℤ, s' ≠ 0 →
      mpFind (Host.get_unpooled_connections [(0, [Connection.mk 0 1, Connection.mk 0 2,
        Connection.mk 0 3])] 0 2).2 s' =
        mpFind [(0, [Connection.mk 0 1, Connection.mk 0 2, Connection.mk 0 3])] s') :=
  marketplace_withdraw.1 [(0, [Connection.mk 0 1, Connection.mk 0 2, Connection.mk 0 3])]
    0 2 [Connection.mk 0 1, Connection.mk 0 2, Connection.mk 0 3] (by decide) (by decide)

/-- C8: teardown.  `close_unpooled_connections` imports and closes exactly
the connections held at the time of the call, once each and in iteration
order; afterwards every shard's list is empty, any subsequent withdraw on
any shard returns an empty sequence without further mutation, and a second
close closes nothing. -/
theorem marketplace_close_all :
    (∀ m : Marketplace, (Host.close_unpooled_connections m).1 = heldConnections m) ∧
    (∀ (m : Marketplace) (c : Connection),
      ((Host.close_unpooled_connections m).1).count c = (heldConnections m).count c) ∧
    (∀ (m : Marketplace) (s : ℤ), shardLen (Host.close_unpooled_connections m).2 s = 0) ∧
    (∀ (m : Marketplace) (s : ℤ) (n : ℕ),
      Host.get_unpooled_connections (Host.close_unpooled_connections m).2 s n =
        ([], (Host.close_unpooled_connections m).2)) ∧
    (∀ m : Marketplace,
      (Host.close_unpooled_connections (Host.close_unpooled_connections m).2).1 = []) :=
  ⟨close_closed_eq_held,
    fun m c => by rw [close_closed_eq_held],
    close_shardLen, close_then_withdraw, close_twice⟩

/-- C8 (witness): instantiation of `marketplace_close_all` on a two-shard
marketplace holding three connections. -/
theorem marketplace_close_all_witness :
    (Host.close_unpooled_connections [(0, [Connection.mk 0 1, Connection.mk 0 2]),
        (1, [Connection.mk 1 3])]).1 =
      heldConnections [(0, [Connection.mk 0 1, Connection.mk 0 2]),
        (1, [Connection.mk 1 3])] :=
  marketplace_close_all.1 [(0, [Connection.mk 0 1, Connection.mk 0 2]),
    (1, [Connection.mk 1 3])]

/-! ## Claims C1 and C6: latency tracker lemmas -/

lemma wrap64_eq_self (z : ℤ) (h1 : -(2 ^ 63) ≤ z) (h2 : z < 2 ^ 63) : wrap64 z = z := by
  have : (z + 2 ^ 63) % 2 ^ 64 = z + 2 ^ 63 := Int.emod_eq_of_lt (by omega) (by omega)
  simp only [wrap64, this]
  omega

lemma latencyWeight_pos {x : ℝ} (hx : 0 < x) : 0 < latencyWeight x :=
  div_pos (Real.log_pos (by linarith)) hx

lemma latencyWeight_lt_one {x : ℝ} (hx : 0 < x) : latencyWeight x < 1 := by
  rw [latencyWeight, div_lt_one hx]
  have h := Real.log_lt_sub_one_of_pos (x := x + 1) (by linarith) (by linarith)
  linarith

lemma i64trunc_nonneg {x : ℝ} (h : 0 ≤ x) : 0 ≤ i64trunc x := by
  rw [i64trunc, if_pos h]
  exact Int.floor_nonneg.mpr h

/-- C6 (amended): when the tracker is past warm-up with a defined average
(`num_measured ≥ threshold` and `average ≥ 0`) and `update` observes a
clock value not later than the stored timestamp (with the regression below
`2^63` ns, so the wrapped `int64_t` delay is nonpositive), the sample is
discarded with no state mutation at all. -/
theorem latency_clock_anomaly (T : ℕ) (scale : ℝ) (s : TimestampedAverage) (lat now : ℕ)
    (h1 : T ≤ s.num_measured) (h2 : 0 ≤ s.average)
    (h3 : now ≤ s.timestamp) (h4 : (s.timestamp : ℤ) - now < 2 ^ 63) :
    LatencyTracker.update T scale s lat now = s := by
  have hlt : ¬ s.num_measured < T := not_lt.mpr h1
  have hav : ¬ s.average < 0 := not_lt.mpr h2
  have hdelay : wrap64 ((now : ℤ) - (s.timestamp : ℤ)) ≤ 0 := by
    rw [wrap64_eq_self _ (by omega) (by omega)]
    omega
  simp [LatencyTracker.update, hlt, hav, hdelay]

/-- C6 (witness): instantiation of `latency_clock_anomaly` on the state
`(average 50, timestamp 10, 5 measured)` with threshold 2 and a call
observing the earlier clock value 7. -/
theorem latency_clock_anomaly_witness :
    LatencyTracker.update 2 1 ⟨50, 10, 5⟩ 100 7 = ⟨50, 10, 5⟩ :=
  latency_clock_anomaly 2 1 ⟨50, 10, 5⟩ 100 7 (by norm_num) (by norm_num)
    (by norm_num) (by norm_num)

/-- C6 (counterexample): the claim "for every LatencyTracker state, a call
whose clock value is not later than the stored timestamp leaves average,
num_measured and timestamp unchanged" is false: during warm-up (state
`(-1, 10, 0)`, threshold 2) an update observing the earlier clock value 5
still increments `num_measured` to 1 and overwrites the timestamp with 5 —
the `delay <= 0` guard sits only in the fully-warmed branch. -/
theorem latency_clock_anomaly_cex :
    (5 : ℕ) ≤ 10 ∧
    (⟨-1, 10, 0⟩ : TimestampedAverage).num_measured = 0 ∧
    (LatencyTracker.update 2 1 ⟨-1, 10, 0⟩ 100 5).num_measured = 1 ∧
    (LatencyTracker.update 2 1 ⟨-1, 10, 0⟩ 100 5).timestamp = 5 := by
  refine ⟨by norm_num, rfl, ?_, ?_⟩ <;> rfl

lemma update_preserves_warmup_iff (T : ℕ) (scale : ℝ) (hscale : 0 < scale)
    (s : TimestampedAverage) (lat now : ℕ) (hlat : lat < 2 ^ 63)
    (h : s.average = -1 ↔ s.num_measured ≤ T) :
    ((LatencyTracker.update T scale s lat now).average = -1 ↔
      (LatencyTracker.update T scale s lat now).num_measured ≤ T) := by
  by_cases h1 : s.num_measured < T
  · simp only [LatencyTracker.update, h1, if_true]
    constructor
    · intro _; omega
    · intro _; trivial
  · by_cases h2 : s.average < 0
    · simp only [LatencyTracker.update, h1, if_false, h2, if_true]
      rw [wrap64_eq_self (lat : ℤ) (by omega) (by exact_mod_cast hlat)]
      constructor
      · intro hc; omega
      · intro hc; omega
    · by_cases h3 : wrap64 ((now : ℤ) - (s.timestamp : ℤ)) ≤ 0
      · simp only [LatencyTracker.update, h1, if_false, h2, if_true, h3]
        simpa using h
      · have hd : (0 : ℤ) < wrap64 ((now : ℤ) - (s.timestamp : ℤ)) := lt_of_not_le h3
        have hscaled : (0 : ℝ) < (wrap64 ((now : ℤ) - (s.timestamp : ℤ)) : ℝ) / scale :=
          div_pos (by exact_mod_cast hd) hscale
        have hw0 := latencyWeight_pos hscaled
        have hw1 := latencyWeight_lt_one hscaled
        have havg : (0 : ℝ) ≤ (s.average : ℝ) := by
          have := not_lt.mp h2
          exact_mod_cast this
        have hval : (0 : ℝ) ≤
            (1 - latencyWeight ((wrap64 ((now : ℤ) - (s.timestamp : ℤ)) : ℝ) / scale)) * (lat : ℝ) +
              latencyWeight ((wrap64 ((now : ℤ) - (s.timestamp : ℤ)) : ℝ) / scale) * (s.average : ℝ) := by
          have hlat0 : (0 : ℝ) ≤ (lat : ℝ) := Nat.cast_nonneg lat
          nlinarith
        have htr := i64trunc_nonneg hval
        simp only [LatencyTracker.update, h1, if_false, h2, if_true, h3]
        constructor
        · intro hc; omega
        · intro hc; omega

lemma runUpdates_warmup_count (T : ℕ) (scale : ℝ) (samples : List (ℕ × ℕ)) :
    ∀ s : TimestampedAverage, s.average = -1 → s.num_measured + samples.length ≤ T →
    (runUpdates T scale s samples).average = -1 ∧
      (runUpdates T scale s samples).num_measured = s.num_measured + samples.length := by
  induction samples with
  | nil => intro s h1 _; simpa [runUpdates] using h1
  | cons p ps ih =>
    intro s h1 h2
    simp only [List.length_cons] at h2
    have hlt : s.num_measured < T := by omega
    have hstep : LatencyTracker.update T scale s p.1 p.2 =
        ⟨-1, p.2, s.num_measured + 1⟩ := by
      simp [LatencyTracker.update, hlt]
    simp only [runUpdates, List.foldl_cons]
    have := ih (LatencyTracker.update T scale s p.1 p.2)
      (by rw [hstep]) (by rw [hstep]; simp; omega)
    simp only [runUpdates] at this
    refine ⟨this.1, ?_⟩
    rw [this.2, hstep]
    simp
    omega

lemma runUpdates_warmup_iff (T : ℕ) (scale : ℝ) (hscale : 0 < scale)
    (samples : List (ℕ × ℕ)) (hlat : ∀ p ∈ samples, p.1 < 2 ^ 63) :
    ∀ s : TimestampedAverage, (s.average = -1 ↔ s.num_measured ≤ T) →
    ((runUpdates T scale s samples).average = -1 ↔
      (runUpdates T scale s samples).num_measured ≤ T) := by
  induction samples with
  | nil => intro s h; simpa [runUpdates] using h
  | cons p ps ih =>
    intro s h
    simp only [runUpdates, List.foldl_cons]
    have hp : p.1 < 2 ^ 63 := hlat p (List.mem_cons_self p ps)
    have := ih (fun q hq => hlat q (List.mem_cons_of_mem p hq))
      (LatencyTracker.update T scale s p.1 p.2)
      (update_preserves_warmup_iff T scale hscale s p.1 p.2 hp h)
    simpa [runUpdates] using this

/-- C1 (amended): for a tracker with `threshold_to_account = T` started
from the initial state, fed samples below `2^63` ns: the stored average is
`-1` iff at most `T` measurements have been recorded (note: *at most*, not
*fewer than*); after `k ≤ T` calls the average is `-1` and the counter is
`k`; and it is the `(T+1)`-th call — the first with
`num_measured = T` and the average still undefined — that installs its raw
`latency_ns` as the new average. -/
theorem latency_warmup (T : ℕ) (scale : ℝ) (hscale : 0 < scale)
    (samples : List (ℕ × ℕ)) (hlat : ∀ p ∈ samples, p.1 < 2 ^ 63) :
    ((runUpdates T scale TimestampedAverage.initial samples).average = -1 ↔
      (runUpdates T scale TimestampedAverage.initial samples).num_measured ≤ T) ∧
    (samples.length ≤ T →
      (runUpdates T scale TimestampedAverage.initial samples).average = -1 ∧
      (runUpdates T scale TimestampedAverage.initial samples).num_measured =
        samples.length) ∧
    (∀ (s : TimestampedAverage) (lat now : ℕ), lat < 2 ^ 63 →
      s.num_measured = T → s.average = -1 →
      (LatencyTracker.update T scale s lat now).average = (lat : ℤ) ∧
      (LatencyTracker.update T scale s lat now).num_measured = T + 1) := by
  refine ⟨?_, ?_, ?_⟩
  · exact runUpdates_warmup_iff T scale hscale samples hlat TimestampedAverage.initial
      (by simp [TimestampedAverage.initial])
  · intro hlen
    have := runUpdates_warmup_count T scale samples TimestampedAverage.initial rfl
      (by simpa [TimestampedAverage.initial] using hlen)
    simpa [TimestampedAverage.initial] using this
  · intro s lat now hl hnm havg
    have h1 : ¬ s.num_measured < T := by omega
    have h2 : s.average < 0 := by rw [havg]; norm_num
    simp only [LatencyTracker.update, h1, if_false, h2, if_true]
    rw [wrap64_eq_self (lat : ℤ) (by omega) (by exact_mod_cast hl)]
    exact ⟨rfl, by omega⟩

/-- C1 (witness): instantiation of `latency_warmup` with threshold 1,
scale 1 and the two-sample history `[(100, 5), (200, 9)]`. -/
theorem latency_warmup_witness :
    ((runUpdates 1 1 TimestampedAverage.initial [(100, 5), (200, 9)]).average = -1 ↔
      (runUpdates 1 1 TimestampedAverage.initial [(100, 5), (200, 9)]).num_measured ≤ 1) ∧
    ([(100, 5), (200, 9)].length ≤ 1 →
      (runUpdates 1 1 TimestampedAverage.initial [(100, 5), (200, 9)]).average = -1 ∧
      (runUpdates 1 1 TimestampedAverage.initial [(100, 5), (200, 9)]).num_measured =
        [(100, 5), (200, 9)].length) ∧
    (∀ (s : TimestampedAverage) (lat now : ℕ), lat < 2 ^ 63 →
      s.num_measured = 1 → s.average = -1 →
      (LatencyTracker.update 1 1 s lat now).average = (lat : ℤ) ∧
      (LatencyTracker.update 1 1 s lat now).num_measured = 1 + 1) :=
  latency_warmup 1 1 (by norm_num) [(100, 5), (200, 9)] (by decide)

/-- C1 (counterexample): the claim "on exactly the T-th call, if the
previous average was undefined, the new stored average equals the T-th
sample's raw value; average is -1 iff fewer than T measurements" is false
for `T = 1`: the first (T-th) call starts from `num_measured = 0 < 1`, so
it stores average `-1`, not the raw sample 100 — and afterwards
`num_measured = 1` is not fewer than `T` while the average is still `-1`.
The raw sample is installed only on the (T+1)-th call. -/
theorem latency_warmup_cex :
    TimestampedAverage.initial.average = -1 ∧
    LatencyTracker.update 1 1 TimestampedAverage.initial 100 5 =
      TimestampedAverage.mk (-1) 5 1 ∧
    (LatencyTracker.update 1 1 TimestampedAverage.initial 100 5).average ≠ 100 ∧
    ¬ (LatencyTracker.update 1 1 TimestampedAverage.initial 100 5).num_measured < 1 := by
  refine ⟨rfl, rfl, by decide, by decide⟩

/-! ## Claim C9: the decay weight -/

lemma latencyWeight_strict_anti {a b : ℝ} (ha : 0 < a) (hab : a < b) :
    latencyWeight b < latencyWeight a := by
  have hb : 0 < b := ha.trans hab
  have key : (a / b) * Real.log (b + 1) < Real.log (a + 1) := by
    have h2 : (b + 1) ∈ Set.Ioi (0 : ℝ) := by
      simp only [Set.mem_Ioi]; linarith
    have h1 : (1 : ℝ) ∈ Set.Ioi (0 : ℝ) := by norm_num
    have hne : b + 1 ≠ (1 : ℝ) := by linarith
    have ht1 : 0 < a / b := div_pos ha hb
    have ht2 : 0 < 1 - a / b := by
      have : a / b < 1 := (div_lt_one hb).mpr hab
      linarith
    have hsum : (a / b) + (1 - a / b) = 1 := by ring
    have hcc := strictConcaveOn_log_Ioi.2 h2 h1 hne ht1 ht2 hsum
    simp only [smul_eq_mul, Real.log_one, mul_zero, add_zero, mul_one] at hcc
    have harg : (a / b) * (b + 1) + (1 - a / b) = a + 1 := by
      field_simp
      ring
    rwa [harg] at hcc
  rw [latencyWeight, latencyWeight, div_lt_div_iff₀ hb ha]
  have key2 : a * Real.log (b + 1) < b * Real.log (a + 1) := by
    have h := mul_lt_mul_of_pos_right key hb
    rw [div_mul_eq_mul_div, mul_comm] at h
    calc a * Real.log (b + 1) = b * (a / b) * Real.log (b + 1) := by
          field_simp
      _ < b * Real.log (a + 1) := by
          have := mul_lt_mul_of_pos_left key hb
          calc b * (a / b) * Real.log (b + 1) = b * ((a / b) * Real.log (b + 1)) := by ring
            _ < b * Real.log (a + 1) := this
  linarith

lemma latencyWeight_tendsto_one :
    Filter.Tendsto latencyWeight (nhdsWithin 0 (Set.Ioi 0)) (nhds 1) := by
  have hd : HasDerivAt (fun x : ℝ => Real.log (x + 1)) 1 0 := by
    have h1 : HasDerivAt (fun x : ℝ => x + 1) 1 0 := (hasDerivAt_id 0).add_const 1
    have h2 : HasDerivAt Real.log (((0 : ℝ) + 1)⁻¹) ((0 : ℝ) + 1) :=
      Real.hasDerivAt_log (by norm_num)
    have h3 := h2.comp 0 h1
    simpa using h3
  have hslope := hasDerivAt_iff_tendsto_slope.mp hd
  have hsub : nhdsWithin (0 : ℝ) (Set.Ioi 0) ≤ nhdsWithin (0 : ℝ) {(0 : ℝ)}ᶜ :=
    nhdsWithin_mono 0 fun x hx => ne_of_gt hx
  refine (hslope.mono_left hsub).congr fun x => ?_
  rw [slope_def_field, latencyWeight]
  simp [Real.log_one]

lemma latencyWeight_tendsto_zero :
    Filter.Tendsto latencyWeight Filter.atTop (nhds 0) := by
  have h1 : Filter.Tendsto (fun x : ℝ => Real.log x / x) Filter.atTop (nhds 0) :=
    Real.isLittleO_log_id_atTop.tendsto_div_nhds_zero
  have h2 : Filter.Tendsto (fun x : ℝ => x + 1) Filter.atTop Filter.atTop :=
    Filter.tendsto_atTop_add_const_right _ 1 Filter.tendsto_id
  have h3 := h1.comp h2
  have h4 : Filter.Tendsto (fun x : ℝ => (x + 1) / x) Filter.atTop (nhds 1) := by
    have h5 : Filter.Tendsto (fun x : ℝ => 1 + x⁻¹) Filter.atTop (nhds (1 + 0)) :=
      tendsto_const_nhds.add tendsto_inv_atTop_zero
    rw [add_zero] at h5
    refine h5.congr' ?_
    filter_upwards [Filter.eventually_gt_atTop (0 : ℝ)] with x hx
    have hx0 : x ≠ 0 := ne_of_gt hx
    field_simp
  have h6 := h3.mul h4
  rw [zero_mul] at h6
  refine h6.congr' ?_
  filter_upwards [Filter.eventually_gt_atTop (0 : ℝ)] with x hx
  have hx0 : x ≠ 0 := ne_of_gt hx
  have hx1 : x + 1 ≠ 0 := by positivity
  simp only [Function.comp_apply, latencyWeight]
  field_simp

lemma update_ewma_branch (T : ℕ) (scale : ℝ) (s : TimestampedAverage) (lat now : ℕ)
    (hT : T ≤ s.num_measured) (havg : 0 ≤ s.average)
    (hd1 : 0 < (now : ℤ) - (s.timestamp : ℤ)) (hd2 : (now : ℤ) - (s.timestamp : ℤ) < 2 ^ 63) :
    LatencyTracker.update T scale s lat now =
      ⟨i64trunc ((1 - latencyWeight ((((now : ℤ) - (s.timestamp : ℤ) : ℤ) : ℝ) / scale)) * (lat : ℝ) +
          latencyWeight ((((now : ℤ) - (s.timestamp : ℤ) : ℤ) : ℝ) / scale) * (s.average : ℝ)),
        now, s.num_measured + 1⟩ := by
  have h1 : ¬ s.num_measured < T := not_lt.mpr hT
  have h2 : ¬ s.average < 0 := not_lt.mpr havg
  have hw : wrap64 ((now : ℤ) - (s.timestamp : ℤ)) = (now : ℤ) - (s.timestamp : ℤ) :=
    wrap64_eq_self _ (by omega) hd2
  have h3 : ¬ wrap64 ((now : ℤ) - (s.timestamp : ℤ)) ≤ 0 := by
    rw [hw]; omega
  simp only [LatencyTracker.update, h1, if_false, h2, h3, if_true, hw]
  rw [if_neg (by omega : ¬ ((now : ℤ) - (s.timestamp : ℤ) ≤ 0))]

/-- C9: past warm-up with a defined average and a positive delay
`now - previous.timestamp` (below `2^63`, so the wrapped `int64_t` delay
equals it), the new stored average is the signed-64-bit truncation of
`(1 - weight) * latency_ns + weight * previous.average` with
`weight = log(scaled + 1) / scaled` and `scaled = delay / scale_ns` (the
`double` arithmetic of the source is modelled by exact real arithmetic);
the weight tends to 1 as `scaled → 0⁺` and to 0 as `scaled → ∞`, and a
longer gap strictly decreases the weight, strictly increasing the new
sample's influence `1 - weight`. -/
theorem latency_ewma (T : ℕ) (scale : ℝ) (hscale : 0 < scale) (s : TimestampedAverage)
    (lat now : ℕ) (hT : T ≤ s.num_measured) (havg : 0 ≤ s.average)
    (hd1 : 0 < (now : ℤ) - (s.timestamp : ℤ)) (hd2 : (now : ℤ) - (s.timestamp : ℤ) < 2 ^ 63) :
    (LatencyTracker.update T scale s lat now).average =
      i64trunc ((1 - latencyWeight ((((now : ℤ) - (s.timestamp : ℤ) : ℤ) : ℝ) / scale)) * (lat : ℝ) +
        latencyWeight ((((now : ℤ) - (s.timestamp : ℤ) : ℤ) : ℝ) / scale) * (s.average : ℝ)) ∧
    Filter.Tendsto latencyWeight (nhdsWithin 0 (Set.Ioi 0)) (nhds 1) ∧
    Filter.Tendsto latencyWeight Filter.atTop (nhds 0) ∧
    (∀ a b : ℝ, 0 < a → a < b →
      latencyWeight b < latencyWeight a ∧ 1 - latencyWeight a < 1 - latencyWeight b) :=
  ⟨by rw [update_ewma_branch T scale s lat now hT havg hd1 hd2],
    latencyWeight_tendsto_one, latencyWeight_tendsto_zero,
    fun a b ha hab => ⟨latencyWeight_strict_anti ha hab,
      by have := latencyWeight_strict_anti ha hab; linarith⟩⟩

/-- C9 (witness): instantiation of `latency_ewma` on the state
`(average 50, timestamp 10, 5 measured)` with threshold 2, scale 1, sample
100 at clock value 12. -/
theorem latency_ewma_witness :
    ((LatencyTracker.update 2 1 ⟨50, 10, 5⟩ 100 12).average =
      i64trunc ((1 - latencyWeight ((((12 : ℤ) - ((10 : ℕ) : ℤ) : ℤ) : ℝ) / 1)) * ((100 : ℕ) : ℝ) +
        latencyWeight ((((12 : ℤ) - ((10 : ℕ) : ℤ) : ℤ) : ℝ) / 1) * ((50 : ℤ) : ℝ))) ∧
    Filter.Tendsto latencyWeight (nhdsWithin 0 (Set.Ioi 0)) (nhds 1) ∧
    Filter.Tendsto latencyWeight Filter.atTop (nhds 0) ∧
    (∀ a b : ℝ, 0 < a → a < b →
      latencyWeight b < latencyWeight a ∧ 1 - latencyWeight a < 1 - latencyWeight b) :=
  latency_ewma 2 1 (by norm_num) ⟨50, 10, 5⟩ 100 12 (by norm_num) (by norm_num)
    (by norm_num) (by norm_num)

end HostSpec
